import Mathlib

/-!
Verification development for the extraction core described by the design
document of this repository (a 2D spectral image reduced to a 1D spectrum by
a uniform-aperture "boxcar" extractor and a variance-weighted optimal "Horne"
extractor).  The repository ships only a demonstration notebook that calls
`BoxcarExtract` and `HorneExtract`; the extractors themselves are modelled
from the design document, faithfully to its words, over exact rational
arithmetic.  Not-a-number results are represented by `none : Option ℚ`.
-/

namespace Specreduce

/-- A 2D array of numeric values, indexed (spatial row, dispersion column). -/
abbrev Img : Type := ℕ → ℕ → ℚ

/-- A boolean mask array: `true` means the pixel is excluded. -/
abbrev MaskFun : Type := ℕ → ℕ → Bool

/-- The all-false mask used when the caller supplies no mask. -/
def defaultMask : MaskFun := fun _ _ => false

/-- Error taxonomy of the design document (§7). -/
inductive ExtractError : Type where
  | invalidParameter : ExtractError
  | outOfBounds : ExtractError
  | insufficientData : ExtractError
deriving DecidableEq

/-! ### Aperture window (§4.2)

Modelled from the spec: given a trace position `center` and a `halfWidth`,
the aperture interval is `[center - halfWidth, center + halfWidth]`; spatial
row `r` occupies the unit pixel interval `[r - 1/2, r + 1/2]`; its weight is
the length of the overlap of the two intervals, so fully-included rows get
weight 1, the straddling edge rows get the fractional overlap length, and
rows outside get 0. -/

/-- Modelled from the spec (§4.2 Aperture Window, absent from src/): the
inclusion weight of spatial row `r` for aperture `[center - halfWidth,
center + halfWidth]`, as the overlap length with pixel interval
`[r - 1/2, r + 1/2]`. -/
def apWeight (center halfWidth : ℚ) (r : ℕ) : ℚ :=
  max 0 (min (center + halfWidth) ((r : ℚ) + 1/2) -
    max (center - halfWidth) ((r : ℚ) - 1/2))

/-- The running clamp of the pixel grid point `k - 1/2` into the aperture
interval; `apWeight` telescopes through it. -/
def apClamp (center halfWidth : ℚ) (k : ℕ) : ℚ :=
  max (center - halfWidth) (min (center + halfWidth) ((k : ℚ) - 1/2))

lemma overlap_eq_clamp_sub (lo hi x y : ℚ) (hlh : lo ≤ hi) (hxy : x ≤ y) :
    max 0 (min hi y - max lo x) =
      max lo (min hi y) - max lo (min hi x) := by
  simp only [max_def, min_def]
  split_ifs <;> linarith

lemma apWeight_eq_clamp_sub (center halfWidth : ℚ) (h : 0 ≤ halfWidth)
    (r : ℕ) :
    apWeight center halfWidth r =
      apClamp center halfWidth (r + 1) - apClamp center halfWidth r := by
  have hcast : ((r + 1 : ℕ) : ℚ) - 1/2 = (r : ℚ) + 1/2 := by push_cast; ring
  rw [apWeight, apClamp, apClamp, hcast]
  exact overlap_eq_clamp_sub (center - halfWidth) (center + halfWidth)
    ((r : ℚ) - 1/2) ((r : ℚ) + 1/2) (by linarith) (by linarith)

lemma sum_apWeight (center halfWidth : ℚ) (h : 0 ≤ halfWidth) (n : ℕ) :
    ∑ r in Finset.range n, apWeight center halfWidth r =
      apClamp center halfWidth n - apClamp center halfWidth 0 := by
  calc ∑ r in Finset.range n, apWeight center halfWidth r
      = ∑ r in Finset.range n,
          (apClamp center halfWidth (r + 1) - apClamp center halfWidth r) :=
        Finset.sum_congr rfl fun r _ => apWeight_eq_clamp_sub center halfWidth h r
    _ = apClamp center halfWidth n - apClamp center halfWidth 0 :=
        Finset.sum_range_sub (apClamp center halfWidth) n

/-! ### Boxcar extractor (§4.3) -/

/-- Modelled from the spec (§4.3 Boxcar Extractor, absent from src/): the
aperture weight of row `r` at column `c` with masked pixels forced to 0. -/
def boxcarWeight (mask : MaskFun) (center halfWidth : ℚ) (r c : ℕ) : ℚ :=
  if mask r c then 0 else apWeight center halfWidth r

/-- Modelled from the spec (§4.3): boxcar flux at a column, the sum over the
unmasked spatial rows of pixel value times aperture weight. -/
def boxcarFlux (nrows : ℕ) (data : Img) (mask : MaskFun)
    (center halfWidth : ℚ) (c : ℕ) : ℚ :=
  ∑ r in (Finset.range nrows).filter (fun r => ¬ mask r c),
    data r c * apWeight center halfWidth r

/-- Modelled from the spec (§4.3): boxcar squared uncertainty at a column,
the sum over the unmasked rows of variance times squared aperture weight
(independent-pixel-noise assumption). -/
def boxcarVar (nrows : ℕ) (variance : Img) (mask : MaskFun)
    (center halfWidth : ℚ) (c : ℕ) : ℚ :=
  ∑ r in (Finset.range nrows).filter (fun r => ¬ mask r c),
    variance r c * (apWeight center halfWidth r) ^ 2

/-- A boxcar spectrum result (§4.5): per-column flux, and per-column squared
uncertainty when a variance array was supplied.  Immutable once produced. -/
structure BoxSpectrum : Type where
  flux : ℕ → ℚ
  unc2 : Option (ℕ → ℚ)

/-- Modelled from the spec (§4.3, absent from src/): the boxcar `extract`
call.  It validates the half-width before any computation (fails with
`InvalidParameterError` when `halfWidth ≤ 0` or `halfWidth` is at least half
the spatial extent), then performs one deterministic pass producing the
per-column flux and, when a variance array is supplied, the per-column
squared uncertainty. -/
def boxcarExtract (nrows : ℕ) (data : Img) (varOpt : Option Img)
    (mask : MaskFun) (tracePos : ℕ → ℚ) (halfWidth : ℚ) :
    Except ExtractError BoxSpectrum :=
  if halfWidth ≤ 0 ∨ (nrows : ℚ) / 2 ≤ halfWidth then
    .error .invalidParameter
  else
    .ok { flux := fun c => boxcarFlux nrows data mask (tracePos c) halfWidth c
          unc2 := varOpt.map fun v c =>
            boxcarVar nrows v mask (tracePos c) halfWidth c }

/-! ### Horne optimal extractor (§4.4)

Modelled from the spec (absent from src/).  The per-iteration state is the
set of masked pixels; profile and flux are recomputed from the current mask
snapshot, never mutating shared state in place.  Step 2 mandates smoothing
the candidate profile fractions across neighbouring columns but leaves the
kernel open ("smooth/average … or fit a low-order functional form"); a
three-column moving average along dispersion is taken. -/

/-- Parameters of one Horne extraction: image shape, data, variance and the
outlier-rejection threshold. -/
structure HorneParams : Type where
  nrows : ℕ
  ncols : ℕ
  data : Img
  variance : Img
  rejSigma : ℚ

/-- All pixel coordinates of the image. -/
def pixelGrid (P : HorneParams) : Finset (ℕ × ℕ) :=
  Finset.range P.nrows ×ˢ Finset.range P.ncols

/-- The internal working copy of the caller-supplied mask: the set of masked
in-range pixels. -/
def initMask (P : HorneParams) (mask : MaskFun) : Finset (ℕ × ℕ) :=
  (pixelGrid P).filter (fun p => mask p.1 p.2 = true)

/-- The unmasked spatial rows of column `c` under mask snapshot `m`. -/
def unmaskedRows (P : HorneParams) (m : Finset (ℕ × ℕ)) (c : ℕ) : Finset ℕ :=
  (Finset.range P.nrows).filter (fun r => (r, c) ∉ m)

/-- Modelled from the spec (§4.4 step 1): boxcar-like first-pass flux
estimate per column over all unmasked rows (full spatial extent). -/
def horneEst (P : HorneParams) (m : Finset (ℕ × ℕ)) (c : ℕ) : ℚ :=
  ∑ r in unmaskedRows P m c, P.data r c

/-- Modelled from the spec (§4.4 step 2, first half): candidate per-row
profile fraction, the pixel value normalized by the current flux
estimate. -/
def horneCand (P : HorneParams) (m : Finset (ℕ × ℕ)) (r c : ℕ) : ℚ :=
  if horneEst P m c = 0 then 0 else P.data r c / horneEst P m c

/-- The smoothing window of column `c`: the in-range columns at dispersion
distance at most one. -/
def horneNeighbors (P : HorneParams) (c : ℕ) : Finset ℕ :=
  (Finset.range P.ncols).filter (fun c' => c - 1 ≤ c' ∧ c' ≤ c + 1)

/-- Modelled from the spec (§4.4 step 2, second half): the spatial profile,
the candidate fractions averaged across the neighbouring columns — the
profile must vary slowly along dispersion, so information is combined
across columns to suppress per-column noise. -/
def horneProf (P : HorneParams) (m : Finset (ℕ × ℕ)) (r c : ℕ) : ℚ :=
  (∑ c' in horneNeighbors P c, horneCand P m r c') /
    ((horneNeighbors P c).card : ℚ)

/-- The optimal-weight normalization `Σ profile² / variance` over unmasked
rows (§4.4 steps 3 and 6). -/
def horneDen (P : HorneParams) (m : Finset (ℕ × ℕ)) (c : ℕ) : ℚ :=
  ∑ r in unmaskedRows P m c, (horneProf P m r c) ^ 2 / P.variance r c

/-- The weighted numerator `Σ profile × data / variance` over unmasked rows
(§4.4 step 3). -/
def horneNum (P : HorneParams) (m : Finset (ℕ × ℕ)) (c : ℕ) : ℚ :=
  ∑ r in unmaskedRows P m c, horneProf P m r c * P.data r c / P.variance r c

/-- Modelled from the spec (§4.4 step 3): inverse-variance-weighted flux of
a column; `none` stands for the not-a-number reported when the optimal
weights vanish, in particular when the column has zero unmasked rows. -/
def horneFluxCol (P : HorneParams) (m : Finset (ℕ × ℕ)) (c : ℕ) : Option ℚ :=
  if horneDen P m c = 0 then none else some (horneNum P m c / horneDen P m c)

/-- Modelled from the spec (§4.4 step 6): squared uncertainty of a column,
`1 / Σ profile² / variance`; `none` stands for not-a-number. -/
def horneUnc2Col (P : HorneParams) (m : Finset (ℕ × ℕ)) (c : ℕ) : Option ℚ :=
  if horneDen P m c = 0 then none else some (1 / horneDen P m c)

/-- Modelled from the spec (§4.4 step 4): the outlier test.  A pixel is
newly rejected when the magnitude of its standardized residual relative to
`flux × profile` exceeds `rejSigma`, compared here in squared form to stay
within rational arithmetic.  Columns whose flux is not-a-number reject
nothing. -/
def isRejected (P : HorneParams) (m : Finset (ℕ × ℕ)) (r c : ℕ) : Bool :=
  match horneFluxCol P m c with
  | none => false
  | some f =>
      decide (P.rejSigma ^ 2 * P.variance r c <
        (P.data r c - f * horneProf P m r c) ^ 2)

/-- One Horne iteration on a mask snapshot: the newly rejected pixels are
added to the mask (monotonic masking). -/
def horneStep (P : HorneParams) (m : Finset (ℕ × ℕ)) : Finset (ℕ × ℕ) :=
  m ∪ (pixelGrid P).filter (fun p => isRejected P m p.1 p.2 = true)

/-- The sequence of per-iteration mask snapshots `mask_0, mask_1, …`. -/
def horneMasks (P : HorneParams) (m0 : Finset (ℕ × ℕ)) : ℕ → Finset (ℕ × ℕ)
  | 0 => m0
  | n + 1 => horneStep P (horneMasks P m0 n)

/-- Modelled from the spec (§4.4 step 5): the convergence loop, repeating
the masking step until no new pixels are rejected or the iteration budget is
exhausted. -/
def horneLoop (P : HorneParams) : ℕ → Finset (ℕ × ℕ) → Finset (ℕ × ℕ)
  | 0, m => m
  | n + 1, m => if horneStep P m = m then m else horneLoop P n (horneStep P m)

/-- A Horne spectrum result (§4.5): per-column flux and squared uncertainty,
`none` standing for not-a-number.  Immutable once produced. -/
structure HorneSpectrum : Type where
  flux : ℕ → Option ℚ
  unc2 : ℕ → Option ℚ

/-- The Horne computation after input normalization: run the convergence
loop from the initial mask, then report per-column flux and uncertainty from
the final mask. -/
def horneCompute (P : HorneParams) (m0 : Finset (ℕ × ℕ)) (iterLimit : ℕ) :
    HorneSpectrum :=
  { flux := fun c => horneFluxCol P (horneLoop P iterLimit m0) c
    unc2 := fun c => horneUnc2Col P (horneLoop P iterLimit m0) c }

/-! ### Input normalization and the full Horne call (§6, §9)

Modelled from the spec: the extractor accepts either separate raw arrays or
a single bundled image object exposing data, uncertainty (a variance-type
array), mask and unit; a single normalization step converts any accepted
input into the internal (image, variance, mask, unit) tuple. -/

/-- An accepted image input: a raw data array, or a bundled image object
carrying data together with optional variance-type uncertainty, mask and
unit. -/
inductive ImgInput : Type where
  | raw (d : Img) : ImgInput
  | bundled (d : Img) (uncertainty : Option Img) (mask : Option MaskFun)
      (unit : Option String) : ImgInput

/-- Call-time arguments of a Horne `extract` invocation. -/
structure CallArgs : Type where
  variance : Option Img
  mask : Option MaskFun
  unit : Option String

/-- The empty call (no call-time arguments supplied). -/
def noArgs : CallArgs := { variance := none, mask := none, unit := none }

/-- Modelled from the spec (§9 adapter): normalize any accepted input into
the internal (data, variance, mask, unit) tuple.  Call-time arguments take
precedence over bundled components; a raw array must be given a variance at
call time, else the call fails with `InvalidParameterError`. -/
def normalizeInput (inp : ImgInput) (a : CallArgs) :
    Except ExtractError (Img × Img × MaskFun × Option String) :=
  match inp with
  | .raw d =>
      match a.variance with
      | none => .error .invalidParameter
      | some v => .ok (d, v, a.mask.getD defaultMask, a.unit)
  | .bundled d unc msk un =>
      match a.variance.orElse (fun _ => unc) with
      | none => .error .invalidParameter
      | some v =>
          .ok (d, v, (a.mask.orElse (fun _ => msk)).getD defaultMask,
            a.unit.orElse (fun _ => un))

/-- Modelled from the spec (§4.4, §6, §7): the full Horne `extract` call.
Inputs are normalized, parameters validated eagerly (positive iteration
limit and rejection threshold, strictly positive variance), then the
iterative computation runs; per-column data insufficiency never aborts the
call. -/
def horneExtract (nrows ncols : ℕ) (inp : ImgInput) (a : CallArgs)
    (iterLimit : ℕ) (sigma : ℚ) :
    Except ExtractError (HorneSpectrum × Option String) :=
  match normalizeInput inp a with
  | .error e => .error e
  | .ok (d, v, msk, un) =>
      if iterLimit = 0 ∨ sigma ≤ 0 then .error .invalidParameter
      else if ∀ p ∈ Finset.range nrows ×ˢ Finset.range ncols,
          (0 : ℚ) < v p.1 p.2 then
        .ok (horneCompute ⟨nrows, ncols, d, v, sigma⟩
          (initMask ⟨nrows, ncols, d, v, sigma⟩ msk) iterLimit, un)
      else .error .invalidParameter

/-! ### Lemmas about the Horne iteration -/

lemma horneStep_subset (P : HorneParams) (m : Finset (ℕ × ℕ)) :
    m ⊆ horneStep P m :=
  Finset.subset_union_left

lemma horneMasks_subset_succ (P : HorneParams) (m0 : Finset (ℕ × ℕ))
    (n : ℕ) : horneMasks P m0 n ⊆ horneMasks P m0 (n + 1) :=
  horneStep_subset P (horneMasks P m0 n)

lemma horneMasks_mono (P : HorneParams) (m0 : Finset (ℕ × ℕ)) {i j : ℕ}
    (hij : i ≤ j) : horneMasks P m0 i ⊆ horneMasks P m0 j := by
  induction hij with
  | refl => exact subset_rfl
  | step _ ih => exact ih.trans (horneMasks_subset_succ P m0 _)

lemma horneMasks_of_fix (P : HorneParams) {m : Finset (ℕ × ℕ)}
    (h : horneStep P m = m) : ∀ n, horneMasks P m n = m
  | 0 => rfl
  | n + 1 => by
      show horneStep P (horneMasks P m n) = m
      rw [horneMasks_of_fix P h n, h]

lemma horneMasks_shift (P : HorneParams) (m0 : Finset (ℕ × ℕ)) :
    ∀ n, horneMasks P m0 (n + 1) = horneMasks P (horneStep P m0) n
  | 0 => rfl
  | n + 1 => by
      show horneStep P (horneMasks P m0 (n + 1)) =
        horneStep P (horneMasks P (horneStep P m0) n)
      rw [horneMasks_shift P m0 n]

lemma horneLoop_eq_horneMasks (P : HorneParams) :
    ∀ (n : ℕ) (m : Finset (ℕ × ℕ)), horneLoop P n m = horneMasks P m n
  | 0, _ => rfl
  | n + 1, m => by
      show (if horneStep P m = m then m else horneLoop P n (horneStep P m)) =
        horneMasks P m (n + 1)
      by_cases h : horneStep P m = m
      · rw [if_pos h, horneMasks_of_fix P h (n + 1)]
      · rw [if_neg h, horneLoop_eq_horneMasks P n (horneStep P m),
          horneMasks_shift P m n]

/-- Claim C3: during a single Horne extract call the set of masked pixels
grows monotonically across iterations — any pixel masked at the start of
iteration `i`, or newly masked there because its standardized residual
exceeds the rejection threshold, belongs to the mask of every later
iteration `j`. -/
theorem horne_masking_monotonic (P : HorneParams) (m0 : Finset (ℕ × ℕ))
    (i j : ℕ) (hij : i ≤ j) :
    horneMasks P m0 i ⊆ horneMasks P m0 j ∧
    (∀ r c : ℕ, (r, c) ∈ pixelGrid P →
      isRejected P (horneMasks P m0 i) r c = true → i < j →
      (r, c) ∈ horneMasks P m0 j) := by
  refine ⟨horneMasks_mono P m0 hij, ?_⟩
  intro r c hgrid hrej hij'
  have hmem : (r, c) ∈ horneMasks P m0 (i + 1) := by
    show (r, c) ∈ horneStep P (horneMasks P m0 i)
    exact Finset.mem_union_right _ (Finset.mem_filter.mpr ⟨hgrid, hrej⟩)
  exact horneMasks_mono P m0 hij' hmem

/-- Concrete Horne parameters on which the outlier test fires: a 2×2 image
whose signal sits on row 0 in column 0 and row 1 in column 1, unit
variances, rejection threshold 1/4. -/
def rejP : HorneParams :=
  ⟨2, 2, fun r c => if r = c then 1 else 0, fun _ _ => 1, 1/4⟩

/-- Closed instance of `horne_masking_monotonic` at a concrete extraction in
which pixel (0, 0) is newly rejected at iteration 0 — its standardized
residual exceeds the rejection threshold — and therefore belongs to the
mask two iterations later. -/
theorem horne_masking_monotonic_witness :
    isRejected rejP (horneMasks rejP ∅ 0) 0 0 = true ∧
    horneMasks rejP ∅ 0 ⊆ horneMasks rejP ∅ 2 ∧
    (0, 0) ∈ horneMasks rejP ∅ 2 := by
  have hu0 : unmaskedRows rejP ∅ 0 = Finset.range 2 := by
    simp [unmaskedRows, rejP]
  have hu1 : unmaskedRows rejP ∅ 1 = Finset.range 2 := by
    simp [unmaskedRows, rejP]
  have he0 : horneEst rejP ∅ 0 = 1 := by
    rw [horneEst, hu0, Finset.sum_range_succ, Finset.sum_range_succ,
      Finset.sum_range_zero]
    norm_num [rejP]
  have he1 : horneEst rejP ∅ 1 = 1 := by
    rw [horneEst, hu1, Finset.sum_range_succ, Finset.sum_range_succ,
      Finset.sum_range_zero]
    norm_num [rejP]
  have hn0 : horneNeighbors rejP 0 = Finset.range 2 := by decide
  have hc00 : horneCand rejP ∅ 0 0 = 1 := by
    rw [horneCand, he0]
    norm_num [rejP]
  have hc01 : horneCand rejP ∅ 0 1 = 0 := by
    rw [horneCand, he1]
    norm_num [rejP]
  have hc10 : horneCand rejP ∅ 1 0 = 0 := by
    rw [horneCand, he0]
    norm_num [rejP]
  have hc11 : horneCand rejP ∅ 1 1 = 1 := by
    rw [horneCand, he1]
    norm_num [rejP]
  have hp00 : horneProf rejP ∅ 0 0 = 1/2 := by
    rw [horneProf, hn0, Finset.sum_range_succ, Finset.sum_range_succ,
      Finset.sum_range_zero, hc00, hc01]
    norm_num
  have hp10 : horneProf rejP ∅ 1 0 = 1/2 := by
    rw [horneProf, hn0, Finset.sum_range_succ, Finset.sum_range_succ,
      Finset.sum_range_zero, hc10, hc11]
    norm_num
  have hden : horneDen rejP ∅ 0 = 1/2 := by
    rw [horneDen, hu0, Finset.sum_range_succ, Finset.sum_range_succ,
      Finset.sum_range_zero, hp00, hp10]
    norm_num [rejP]
  have hnum : horneNum rejP ∅ 0 = 1/2 := by
    rw [horneNum, hu0, Finset.sum_range_succ, Finset.sum_range_succ,
      Finset.sum_range_zero, hp00, hp10]
    norm_num [rejP]
  have hflux : horneFluxCol rejP ∅ 0 = some 1 := by
    rw [horneFluxCol, hden, hnum]
    norm_num
  have hrej : isRejected rejP (horneMasks rejP ∅ 0) 0 0 = true := by
    show isRejected rejP ∅ 0 0 = true
    unfold isRejected
    rw [hflux]
    show decide (rejP.rejSigma ^ 2 * rejP.variance 0 0 <
      (rejP.data 0 0 - 1 * horneProf rejP ∅ 0 0) ^ 2) = true
    rw [hp00]
    norm_num [rejP]
  have h := horne_masking_monotonic rejP ∅ 0 2 (by norm_num)
  exact ⟨hrej, h.1, h.2 0 0 (by decide) hrej (by norm_num)⟩

/-- Claim C4: a column all of whose rows are masked at some iteration `i` of
the run has not-a-number flux and uncertainty in the returned spectrum,
while every column (in particular every other column) is still reported —
from the final mask by the per-column formula — so the per-column failure
never aborts the whole spectrum. -/
theorem horne_fully_masked_column (P : HorneParams) (m0 : Finset (ℕ × ℕ))
    (iterLimit i c : ℕ) (hi : i ≤ iterLimit)
    (hall : ∀ r : ℕ, r < P.nrows → (r, c) ∈ horneMasks P m0 i) :
    (horneCompute P m0 iterLimit).flux c = none ∧
    (horneCompute P m0 iterLimit).unc2 c = none ∧
    (∀ c' : ℕ, (horneCompute P m0 iterLimit).flux c' =
      horneFluxCol P (horneMasks P m0 iterLimit) c') := by
  have hfinal : horneLoop P iterLimit m0 = horneMasks P m0 iterLimit :=
    horneLoop_eq_horneMasks P iterLimit m0
  have hempty : unmaskedRows P (horneMasks P m0 iterLimit) c = ∅ := by
    rw [Finset.eq_empty_iff_forall_not_mem]
    intro r hr
    rw [unmaskedRows, Finset.mem_filter, Finset.mem_range] at hr
    exact hr.2 (horneMasks_mono P m0 hi (hall r hr.1))
  have hden : horneDen P (horneMasks P m0 iterLimit) c = 0 := by
    rw [horneDen, hempty, Finset.sum_empty]
  refine ⟨?_, ?_, ?_⟩
  · show horneFluxCol P (horneLoop P iterLimit m0) c = none
    rw [hfinal, horneFluxCol, if_pos hden]
  · show horneUnc2Col P (horneLoop P iterLimit m0) c = none
    rw [hfinal, horneUnc2Col, if_pos hden]
  · intro c'
    show horneFluxCol P (horneLoop P iterLimit m0) c' =
      horneFluxCol P (horneMasks P m0 iterLimit) c'
    rw [hfinal]

/-- Closed instance of `horne_fully_masked_column`: with row 0 of column 0
masked from the start (1×2 image), column 0 is reported as not-a-number and
both columns are still reported from the final mask. -/
theorem horne_fully_masked_column_witness :
    (horneCompute ⟨1, 2, fun _ _ => 1, fun _ _ => 1, 5⟩ {(0, 0)} 1).flux 0 =
      none ∧
    (horneCompute ⟨1, 2, fun _ _ => 1, fun _ _ => 1, 5⟩ {(0, 0)} 1).unc2 0 =
      none ∧
    (∀ c' : ℕ,
      (horneCompute ⟨1, 2, fun _ _ => 1, fun _ _ => 1, 5⟩ {(0, 0)} 1).flux c' =
      horneFluxCol ⟨1, 2, fun _ _ => 1, fun _ _ => 1, 5⟩
        (horneMasks ⟨1, 2, fun _ _ => 1, fun _ _ => 1, 5⟩ {(0, 0)} 1) c') :=
  horne_fully_masked_column ⟨1, 2, fun _ _ => 1, fun _ _ => 1, 5⟩ {(0, 0)}
    1 0 0 (by decide) (by decide)

/-! ### Aperture weight properties -/

lemma apWeight_nonneg (center halfWidth : ℚ) (r : ℕ) :
    0 ≤ apWeight center halfWidth r :=
  le_max_left 0 _

lemma apWeight_le_one (center halfWidth : ℚ) (r : ℕ) :
    apWeight center halfWidth r ≤ 1 := by
  apply max_le (by norm_num)
  have h1 := min_le_right (center + halfWidth) ((r : ℚ) + 1/2)
  have h2 := le_max_right (center - halfWidth) ((r : ℚ) - 1/2)
  linarith

lemma apWeight_mono (center : ℚ) {w1 w2 : ℚ} (h : w1 ≤ w2) (r : ℕ) :
    apWeight center w1 r ≤ apWeight center w2 r := by
  apply max_le_max le_rfl
  have h1 : min (center + w1) ((r : ℚ) + 1/2) ≤
      min (center + w2) ((r : ℚ) + 1/2) := min_le_min (by linarith) le_rfl
  have h2 : max (center - w2) ((r : ℚ) - 1/2) ≤
      max (center - w1) ((r : ℚ) - 1/2) := max_le_max (by linarith) le_rfl
  linarith

/-- Claim C6: for every column and positive half-width, each aperture weight
lies in `[0, 1]`; rows whose pixel interval is fully inside the aperture get
weight 1, rows whose pixel interval is disjoint from it get weight 0, and
the weights over the spatial extent sum to exactly `2 × halfWidth` when the
aperture is not clipped at the image boundary, and to at most
`2 × halfWidth` in general (rounding loss only from boundary clipping). -/
theorem aperture_weight_invariants (center halfWidth : ℚ) (n : ℕ)
    (hpos : 0 < halfWidth) :
    (∀ r : ℕ, 0 ≤ apWeight center halfWidth r ∧
      apWeight center halfWidth r ≤ 1) ∧
    (∀ r : ℕ, center - halfWidth ≤ (r : ℚ) - 1/2 →
      (r : ℚ) + 1/2 ≤ center + halfWidth →
      apWeight center halfWidth r = 1) ∧
    (∀ r : ℕ, ((r : ℚ) + 1/2 ≤ center - halfWidth ∨
      center + halfWidth ≤ (r : ℚ) - 1/2) →
      apWeight center halfWidth r = 0) ∧
    (-(1/2 : ℚ) ≤ center - halfWidth → center + halfWidth ≤ (n : ℚ) - 1/2 →
      ∑ r in Finset.range n, apWeight center halfWidth r = 2 * halfWidth) ∧
    (∑ r in Finset.range n, apWeight center halfWidth r ≤ 2 * halfWidth) := by
  refine ⟨fun r => ⟨apWeight_nonneg center halfWidth r,
    apWeight_le_one center halfWidth r⟩, ?_, ?_, ?_, ?_⟩
  · intro r h1 h2
    have e1 : min (center + halfWidth) ((r : ℚ) + 1/2) = (r : ℚ) + 1/2 :=
      min_eq_right h2
    have e2 : max (center - halfWidth) ((r : ℚ) - 1/2) = (r : ℚ) - 1/2 :=
      max_eq_right h1
    have e3 : (r : ℚ) + 1/2 - ((r : ℚ) - 1/2) = 1 := by ring
    rw [apWeight, e1, e2, e3]
    exact max_eq_right (by norm_num)
  · intro r h
    rw [apWeight]
    apply max_eq_left
    have h1 := min_le_right (center + halfWidth) ((r : ℚ) + 1/2)
    have h2 := min_le_left (center + halfWidth) ((r : ℚ) + 1/2)
    have h3 := le_max_left (center - halfWidth) ((r : ℚ) - 1/2)
    have h4 := le_max_right (center - halfWidth) ((r : ℚ) - 1/2)
    rcases h with h | h <;> linarith
  · intro hlo hhi
    rw [sum_apWeight center halfWidth hpos.le n, apClamp, apClamp]
    have e1 : min (center + halfWidth) ((n : ℚ) - 1/2) = center + halfWidth :=
      min_eq_left hhi
    have e2 : max (center - halfWidth) (center + halfWidth) =
        center + halfWidth := max_eq_right (by linarith)
    have e3 : min (center + halfWidth) (((0 : ℕ) : ℚ) - 1/2) =
        ((0 : ℕ) : ℚ) - 1/2 := by
      apply min_eq_right
      push_cast
      linarith
    have e4 : max (center - halfWidth) (((0 : ℕ) : ℚ) - 1/2) =
        center - halfWidth := by
      apply max_eq_left
      push_cast
      linarith
    rw [e1, e2, e3, e4]
    ring
  · rw [sum_apWeight center halfWidth hpos.le n]
    have h1 : apClamp center halfWidth n ≤ center + halfWidth := by
      rw [apClamp]
      apply max_le (by linarith)
      exact min_le_left _ _
    have h2 : center - halfWidth ≤ apClamp center halfWidth 0 :=
      le_max_left _ _
    linarith

/-- Closed instance of `aperture_weight_invariants` for a concrete aperture
(center 2, half-width 1, five rows). -/
theorem aperture_weight_invariants_witness :
    (0 : ℚ) < 1 ∧
    ((∀ r : ℕ, 0 ≤ apWeight 2 1 r ∧ apWeight 2 1 r ≤ 1) ∧
    (∀ r : ℕ, (2 : ℚ) - 1 ≤ (r : ℚ) - 1/2 → (r : ℚ) + 1/2 ≤ (2 : ℚ) + 1 →
      apWeight 2 1 r = 1) ∧
    (∀ r : ℕ, ((r : ℚ) + 1/2 ≤ (2 : ℚ) - 1 ∨ (2 : ℚ) + 1 ≤ (r : ℚ) - 1/2) →
      apWeight 2 1 r = 0) ∧
    (-(1/2 : ℚ) ≤ (2 : ℚ) - 1 → (2 : ℚ) + 1 ≤ ((5 : ℕ) : ℚ) - 1/2 →
      ∑ r in Finset.range 5, apWeight 2 1 r = 2 * 1) ∧
    (∑ r in Finset.range 5, apWeight 2 1 r ≤ 2 * 1)) :=
  ⟨by norm_num, aperture_weight_invariants 2 1 5 (by norm_num)⟩

/-! ### Boxcar claim theorems -/

lemma boxcarFlux_eq_weightSum (nrows : ℕ) (data : Img) (mask : MaskFun)
    (center halfWidth : ℚ) (c : ℕ) :
    boxcarFlux nrows data mask center halfWidth c =
      ∑ r in Finset.range nrows,
        data r c * boxcarWeight mask center halfWidth r c := by
  rw [boxcarFlux, Finset.sum_filter]
  refine Finset.sum_congr rfl fun r _ => ?_
  by_cases hm : mask r c <;> simp [boxcarWeight, hm]

/-- Claim C5: the boxcar extract call fails with `InvalidParameterError`
exactly when the half-width is nonpositive or at least half the spatial
extent, and this validation happens before any computation; every other
half-width yields the deterministic single-pass result, with no other
failure mode. -/
theorem boxcar_width_validation (nrows : ℕ) (data : Img)
    (varOpt : Option Img) (mask : MaskFun) (tracePos : ℕ → ℚ)
    (halfWidth : ℚ) :
    (boxcarExtract nrows data varOpt mask tracePos halfWidth =
        .error .invalidParameter ↔
      halfWidth ≤ 0 ∨ (nrows : ℚ) / 2 ≤ halfWidth) ∧
    (0 < halfWidth → halfWidth < (nrows : ℚ) / 2 →
      boxcarExtract nrows data varOpt mask tracePos halfWidth =
        .ok { flux := fun c =>
                boxcarFlux nrows data mask (tracePos c) halfWidth c
              unc2 := varOpt.map fun v c =>
                boxcarVar nrows v mask (tracePos c) halfWidth c }) := by
  constructor
  · constructor
    · intro h
      by_cases hc : halfWidth ≤ 0 ∨ (nrows : ℚ) / 2 ≤ halfWidth
      · exact hc
      · rw [boxcarExtract, if_neg hc] at h
        exact absurd h (by simp)
    · intro hc
      rw [boxcarExtract, if_pos hc]
  · intro h1 h2
    rw [boxcarExtract, if_neg (by push_neg; exact ⟨h1, h2⟩)]

/-- Closed instance of `boxcar_width_validation`: a 4-row image with
half-width 1 passes validation and returns the single-pass result, and
half-width 3 is rejected. -/
theorem boxcar_width_validation_witness :
    boxcarExtract 4 (fun r _ => (r : ℚ)) none defaultMask (fun _ => 2) 1 =
      .ok { flux := fun c =>
              boxcarFlux 4 (fun r _ => (r : ℚ)) defaultMask 2 1 c
            unc2 := none } ∧
    boxcarExtract 4 (fun r _ => (r : ℚ)) none defaultMask (fun _ => 2) 3 =
      .error .invalidParameter :=
  ⟨(boxcar_width_validation 4 (fun r _ => (r : ℚ)) none defaultMask
      (fun _ => 2) 1).2 (by norm_num) (by norm_num),
    (boxcar_width_validation 4 (fun r _ => (r : ℚ)) none defaultMask
      (fun _ => 2) 3).1.mpr (by norm_num)⟩

/-- Claim C1: for every image, mask and valid half-width, the flux the
boxcar extract call reports at a column is the sum over all spatial rows of
pixel value times that row's aperture inclusion weight with masked pixels
forced to weight 0; and when a variance array is supplied the reported
squared uncertainty at that column is the sum over unmasked rows of variance
times the squared aperture weight. -/
theorem boxcar_flux_and_variance_formula (nrows : ℕ) (data v : Img)
    (mask : MaskFun) (tracePos : ℕ → ℚ) (halfWidth : ℚ) (s : BoxSpectrum)
    (h : boxcarExtract nrows data (some v) mask tracePos halfWidth = .ok s)
    (c : ℕ) :
    s.flux c = ∑ r in Finset.range nrows,
      data r c * boxcarWeight mask (tracePos c) halfWidth r c ∧
    ∃ u, s.unc2 = some u ∧
      u c = ∑ r in (Finset.range nrows).filter (fun r => ¬ mask r c),
        v r c * (apWeight (tracePos c) halfWidth r) ^ 2 := by
  rw [boxcarExtract] at h
  split_ifs at h with hc
  injection h with h'
  subst h'
  exact ⟨boxcarFlux_eq_weightSum nrows data mask (tracePos c) halfWidth c,
    ⟨fun c => boxcarVar nrows v mask (tracePos c) halfWidth c, rfl, rfl⟩⟩

/-- Closed instance of `boxcar_flux_and_variance_formula` at a concrete
4-row image, half-width 1, column 0. -/
theorem boxcar_formula_witness :
    ({ flux := fun c => boxcarFlux 4 (fun r _ => (r : ℚ)) defaultMask 2 1 c
       unc2 := some fun c =>
         boxcarVar 4 (fun _ _ => (1 : ℚ)) defaultMask 2 1 c } :
        BoxSpectrum).flux 0 =
      (∑ r in Finset.range 4,
        (r : ℚ) * boxcarWeight defaultMask 2 1 r 0) ∧
    ∃ u, ({ flux := fun c =>
              boxcarFlux 4 (fun r _ => (r : ℚ)) defaultMask 2 1 c
            unc2 := some fun c =>
              boxcarVar 4 (fun _ _ => (1 : ℚ)) defaultMask 2 1 c } :
        BoxSpectrum).unc2 = some u ∧
      u 0 = ∑ r in (Finset.range 4).filter (fun r => ¬ defaultMask r 0),
        (1 : ℚ) * (apWeight 2 1 r) ^ 2 :=
  boxcar_flux_and_variance_formula 4 (fun r _ => (r : ℚ))
    (fun _ _ => (1 : ℚ)) defaultMask (fun _ => 2) 1 _
    (by rw [boxcarExtract, if_neg (by norm_num)]; rfl) 0

/-- Claim C7: for a non-negative image and positive half-widths
`w1 ≤ w2`, the boxcar flux of every column extracted with `w1` is at most
the flux extracted with `w2`: shrinking the aperture never increases
flux. -/
theorem boxcar_flux_monotone_width (nrows : ℕ) (data : Img) (mask : MaskFun)
    (center : ℚ) {w1 w2 : ℚ} (_hw1 : 0 < w1) (h12 : w1 ≤ w2)
    (hpos : ∀ r c : ℕ, 0 ≤ data r c) (c : ℕ) :
    boxcarFlux nrows data mask center w1 c ≤
      boxcarFlux nrows data mask center w2 c := by
  refine Finset.sum_le_sum fun r _ => ?_
  exact mul_le_mul_of_nonneg_left (apWeight_mono center h12 r) (hpos r c)

/-- Closed instance of `boxcar_flux_monotone_width` on a concrete constant
image with half-widths 1/2 and 1. -/
theorem boxcar_flux_monotone_width_witness :
    (0 : ℚ) < 1/2 ∧
    boxcarFlux 3 (fun _ _ => 1) defaultMask 1 (1/2) 0 ≤
      boxcarFlux 3 (fun _ _ => 1) defaultMask 1 1 0 :=
  ⟨by norm_num,
    boxcar_flux_monotone_width 3 (fun _ _ => 1) defaultMask 1 (by norm_num)
      (by norm_num) (fun _ _ => by norm_num) 0⟩

/-! ### Input-representation claims -/

/-- Claim C2: Horne extraction invoked with separate arrays (raw image at
construction; variance, mask and unit at call time) and Horne extraction
invoked on a bundled image object carrying the same data, uncertainty, mask
and unit produce identical results, in particular bit-identical flux
arrays. -/
theorem horne_input_representations_agree (nrows ncols : ℕ) (d v : Img)
    (msk : MaskFun) (u : String) (iterLimit : ℕ) (sigma : ℚ) :
    horneExtract nrows ncols (.raw d)
        { variance := some v, mask := some msk, unit := some u }
        iterLimit sigma =
      horneExtract nrows ncols (.bundled d (some v) (some msk) (some u))
        noArgs iterLimit sigma :=
  rfl

/-- Claim C10: a Horne extractor built from a bundled image object carrying
data, variance-type uncertainty, mask and unit can be invoked with no
call-time arguments and then uses the bundled components as its variance,
mask and unit, whereas one built from a raw array must be given the variance
at call time: with no call-time variance the raw-array call fails with
`InvalidParameterError`, and with one it normalizes successfully. -/
theorem horne_bundled_defaults_raw_requires_variance (nrows ncols : ℕ)
    (d v : Img) (msk : MaskFun) (u : String) (iterLimit : ℕ) (sigma : ℚ) :
    normalizeInput (.bundled d (some v) (some msk) (some u)) noArgs =
      .ok (d, v, msk, some u) ∧
    (∀ mk2 : Option MaskFun, ∀ un2 : Option String,
      normalizeInput (.raw d)
        { variance := none, mask := mk2, unit := un2 } =
        .error .invalidParameter) ∧
    normalizeInput (.raw d)
        { variance := some v, mask := some msk, unit := some u } =
      .ok (d, v, msk, some u) ∧
    horneExtract nrows ncols (.raw d) noArgs iterLimit sigma =
      .error .invalidParameter :=
  ⟨rfl, fun _ _ => rfl, rfl, rfl⟩

/-! ### Output-variance comparison (Horne versus boxcar) -/

/-- Claim C9: over the same aperture (the unmasked rows of a column), with a
normalized spatial profile and strictly positive pixel variances, the
squared uncertainty the Horne extractor reports — the output variance
`1 / Σ profile² / variance` of the optimal linear estimator — is at most the
output variance `Σ variance` of the uniform boxcar sum; with both estimators
unbiased for the column flux this is exactly the statement that Horne's
output signal-to-noise ratio is at least the boxcar's. -/
theorem horne_variance_le_boxcar_variance (P : HorneParams)
    (m : Finset (ℕ × ℕ)) (c : ℕ) (u : ℚ)
    (hv : ∀ r ∈ unmaskedRows P m c, 0 < P.variance r c)
    (hprof : ∑ r in unmaskedRows P m c, horneProf P m r c = 1)
    (hu : horneUnc2Col P m c = some u) :
    u ≤ ∑ r in unmaskedRows P m c, P.variance r c := by
  by_cases hd : horneDen P m c = 0
  · rw [horneUnc2Col, if_pos hd] at hu
    exact absurd hu (by simp)
  · rw [horneUnc2Col, if_neg hd] at hu
    have hu' : u = 1 / horneDen P m c := (Option.some.inj hu).symm
    have hDnn : 0 ≤ horneDen P m c :=
      Finset.sum_nonneg fun r hr =>
        div_nonneg (sq_nonneg _) (hv r hr).le
    have hD : 0 < horneDen P m c := lt_of_le_of_ne hDnn (Ne.symm hd)
    have hne : (unmaskedRows P m c).Nonempty := by
      rcases Finset.eq_empty_or_nonempty (unmaskedRows P m c) with he | hne
      · rw [he, Finset.sum_empty] at hprof
        exact absurd hprof (by norm_num)
      · exact hne
    have hS : 0 < ∑ r in unmaskedRows P m c, P.variance r c :=
      Finset.sum_pos hv hne
    have key := Finset.sq_sum_div_le_sum_sq_div (unmaskedRows P m c)
      (fun r => horneProf P m r c) (g := fun r => P.variance r c) hv
    rw [hprof] at key
    have key' : 1 / (∑ r in unmaskedRows P m c, P.variance r c) ≤
        horneDen P m c := by
      calc 1 / (∑ r in unmaskedRows P m c, P.variance r c)
          = 1 ^ 2 / (∑ r in unmaskedRows P m c, P.variance r c) := by
            norm_num
        _ ≤ ∑ r in unmaskedRows P m c,
              (horneProf P m r c) ^ 2 / P.variance r c := key
        _ = horneDen P m c := rfl
    rw [hu', div_le_iff₀ hD]
    rw [div_le_iff₀ hS] at key'
    linarith

/-- Concrete Horne parameters for the output-variance comparison: a 2-row,
1-column image with uniform data 1/2 and unit variances. -/
def snrP : HorneParams := ⟨2, 1, fun _ _ => 1/2, fun _ _ => 1, 5⟩

/-- Closed instance of `horne_variance_le_boxcar_variance` on `snrP`:
the Horne squared uncertainty 2 is at most the boxcar output variance. -/
theorem horne_variance_le_boxcar_variance_witness :
    horneUnc2Col snrP ∅ 0 = some 2 ∧
    (2 : ℚ) ≤ ∑ r in unmaskedRows snrP ∅ 0, snrP.variance r 0 := by
  have h1 : unmaskedRows snrP ∅ 0 = Finset.range 2 := by
    simp [unmaskedRows, snrP]
  have h2 : horneEst snrP ∅ 0 = 1 := by
    rw [horneEst, h1]
    norm_num [snrP, Finset.sum_range_succ]
  have hn : horneNeighbors snrP 0 = Finset.range 1 := by decide
  have hcand : ∀ r : ℕ, horneCand snrP ∅ r 0 = 1/2 := by
    intro r
    rw [horneCand, h2]
    norm_num [snrP]
  have hp : ∀ r : ℕ, horneProf snrP ∅ r 0 = 1/2 := by
    intro r
    rw [horneProf, hn, Finset.sum_range_succ, Finset.sum_range_zero, hcand r]
    norm_num
  have h3 : horneDen snrP ∅ 0 = 1/2 := by
    rw [horneDen, h1, Finset.sum_range_succ, Finset.sum_range_succ,
      Finset.sum_range_zero, hp 0, hp 1]
    norm_num [snrP]
  have hu : horneUnc2Col snrP ∅ 0 = some 2 := by
    rw [horneUnc2Col, h3]
    norm_num
  refine ⟨hu, horne_variance_le_boxcar_variance snrP ∅ 0 2 ?_ ?_ hu⟩
  · rw [h1]
    intro r _
    norm_num [snrP]
  · rw [h1, Finset.sum_range_succ, Finset.sum_range_succ,
      Finset.sum_range_zero, hp 0, hp 1]
    norm_num

end Specreduce
